import Mathlib

/-!
# Verification of the mt-kahypar partitioning core against its specification

This file gives a shallow embedding, in Lean 4, of the parts of the
mt-kahypar source that the specification's claims talk about:

* the coarsening termination conditions of `MultilevelCoarsener`
  (`multilevel_coarsener.h`),
* the recursive-bipartitioning tree `RBTree` and the adaptive imbalance
  computation of the deep-multilevel driver (`deep_multilevel.cpp`),
* the hypergraph contraction / uncontraction / edge-removal operations
  (`hypergraph.h`; the pin-level parts live in `streaming_hypergraph.h`,
  which is not part of this source drop, and are modelled from the spec
  where noted),
* the CAS-based cluster matching protocol (`matchVertices`),
* the flow-hypergraph builder (`sequential_construction.cpp`), and
* the neighbourhood-activation step of the localized k-way FM search
  (`localized_kway_fm_core.h`).

C++ machine integers are modelled as `Nat`/`Int` (no overflow is relevant
at the sizes involved), and `double` arithmetic as exact rationals; the
transcendental `pow` used by the adaptive-epsilon formula is abstracted
as a function parameter.  Concurrency is modelled by linearizing
operations: each embedded operation is one atomic step.
-/

/-! ## Definitions -/

/-! ### Coarsening termination (multilevel_coarsener.h)

`shouldNotTerminateImpl` returns `currentNumNodes() > contraction_limit`.
`coarseningPassImpl` computes
`reduction_vertices_percentage = num_hns_before_pass / current_num_nodes`
and returns `false` iff that ratio is `<=` the minimum shrink factor
(otherwise it performs the contraction and returns `true`). -/

/-- Embedding of `MultilevelCoarsener::shouldNotTerminateImpl`. -/
def MultilevelCoarsener.shouldNotTerminate (currentNumNodes contractionLimit : ℕ) : Bool :=
  currentNumNodes > contractionLimit

/-- Embedding of the return value of `MultilevelCoarsener::coarseningPassImpl`:
the pass returns `false` (stop) exactly when
`num_hns_before_pass / current_num_nodes <= minimum_shrink_factor`. -/
def MultilevelCoarsener.coarseningPassContinues
    (numNodesBeforePass numNodesAfterPass : ℕ) (minimumShrinkFactor : ℚ) : Bool :=
  if (numNodesBeforePass : ℚ) / (numNodesAfterPass : ℚ) ≤ minimumShrinkFactor then
    false
  else
    true

/-! ### The recursive bipartitioning tree (deep_multilevel.cpp, RBTree)

`precomputeRBTree` starts from the single-entry level `[k]` and repeatedly
expands every entry `m` of the current level: an entry `m > 1` produces the
two entries `m/2 + m%2` and `m/2`, an entry `1` produces the single entry
`1`.  The loop continues while some freshly produced pair has an entry
`> 1` (the code's `should_continue |= (k0 > 1 || k1 > 1)`), always emitting
the level it just built.  `_target_blocks` stores, per level, the partial
sums of the level's entries with a leading `0`, and `_partition_to_level`
maps a block count to the last level with that many entries. -/

/-- The children an RBTree node of value `m` produces (`add_block` calls in
`RBTree::precomputeRBTree`): `k0 = k/2 + k%2`, `k1 = k/2` for `k > 1`,
and a single child `1` for `k = 1`. -/
def RBTree.expandOne (m : ℕ) : List ℕ :=
  if 1 < m then [m / 2 + m % 2, m / 2] else [1]

/-- One iteration of the `while (should_continue)` loop body: the next
level lists the children of all entries of the current level, in order. -/
def RBTree.expandLevel (level : List ℕ) : List ℕ :=
  level.flatMap RBTree.expandOne

/-- The `should_continue` flag accumulated while expanding `level`:
some entry `m > 1` produced a child `> 1`. -/
def RBTree.continueAfterExpanding (level : List ℕ) : Bool :=
  level.any (fun m => decide (1 < m) && (decide (1 < m / 2 + m % 2) || decide (1 < m / 2)))

/-- The levels produced by the `while (should_continue)` loop of
`RBTree::precomputeRBTree`, starting from (and not including) `cur`.
`fuel` only bounds the iteration count; `rbLevels` supplies enough. -/
def RBTree.buildLevels : ℕ → List ℕ → List (List ℕ)
  | 0, _ => []
  | fuel + 1, cur =>
    let next := RBTree.expandLevel cur
    if RBTree.continueAfterExpanding cur then
      next :: RBTree.buildLevels fuel next
    else
      [next]

/-- All levels of the RBTree for partition count `k`
(`_desired_blocks` after `precomputeRBTree`); level 0 is `[k]`. -/
def RBTree.rbLevels (k : ℕ) : List (List ℕ) :=
  [k] :: RBTree.buildLevels k [k]

/-- `_target_blocks` of one level: partial sums of the entries with a
leading `0` (each `add_block` pushes `start + k` where `start` is the
previous back). -/
def RBTree.targetsOfLevel (level : List ℕ) : List ℕ :=
  level.foldl (fun ts m => ts ++ [ts.getLastD 0 + m]) [0]

/-- `_partition_to_level`: the map is filled by a forward loop
`map[levels[i].size()] = i`, so a later level with the same size wins. -/
def RBTree.partitionToLevel (k currentK : ℕ) : ℕ :=
  (((RBTree.rbLevels k).enum.filterMap
    (fun p => if p.2.length = currentK then some p.1 else none)).getLastD 0)

/-- Embedding of `RBTree::targetBlocksInFinalPartition(current_k, block)`:
the pair `(target_blocks[block], target_blocks[block + 1])` of the level
associated with `current_k`. -/
def RBTree.targetBlocksInFinalPartition (k currentK block : ℕ) : ℕ × ℕ :=
  let ts := RBTree.targetsOfLevel
    (((RBTree.rbLevels k).get? (RBTree.partitionToLevel k currentK)).getD [])
  (ts.getD block 0, ts.getD (block + 1) 0)

/-! ### Adaptive epsilon (deep_multilevel.cpp, OriginalHypergraphInfo)

`computeAdaptiveEpsilon` works on `double`s; we model them as exact
rationals.  The only transcendental operation, `std::pow`, is abstracted
as a parameter `pw` (`pw base exponent` stands for `pow(base, exponent)`);
every property proved below holds for an arbitrary `pw`. -/

structure OriginalHypergraphInfo where
  original_hypergraph_weight : ℕ
  original_k : ℕ
  original_epsilon : ℚ

/-- `ceil(static_cast<double>(a) / b)` for machine integers `a`, `b > 0`. -/
def ceilDiv (a b : ℕ) : ℕ :=
  (a + b - 1) / b

/-- The `base` of `OriginalHypergraphInfo::computeAdaptiveEpsilon`:
`ceil(W_orig / k_orig) / ceil(W_cur / k_cur) * (1 + epsilon_orig)`. -/
def OriginalHypergraphInfo.adaptiveBase (info : OriginalHypergraphInfo)
    (currentHypergraphWeight currentK : ℕ) : ℚ :=
  (ceilDiv info.original_hypergraph_weight info.original_k : ℚ)
    / (ceilDiv currentHypergraphWeight currentK : ℚ)
    * (1 + info.original_epsilon)

/-- Embedding of `OriginalHypergraphInfo::computeAdaptiveEpsilon`.
`Nat.clog 2 k` is `ceil(log2(k))`; `pw` abstracts `std::pow`. -/
def OriginalHypergraphInfo.computeAdaptiveEpsilon (pw : ℚ → ℚ → ℚ)
    (info : OriginalHypergraphInfo) (currentHypergraphWeight currentK : ℕ) : ℚ :=
  if currentHypergraphWeight = 0 then 0
  else
    min (99 / 100)
      (max (pw (info.adaptiveBase currentHypergraphWeight currentK)
              (1 / (Nat.clog 2 currentK : ℚ)) - 1) 0)

/-! ### The hypergraph (hypergraph.h)

State visible to the claims: node weights, node/edge enabled flags, pin
lists, incident-net lists, part ids, and the partition overlay counters
`pinCountInPart` / `connectivity`.  `Hypergraph::contract(u, v)` sets
`c(u) += c(v)`, rewrites every hyperedge incident to `v` (if `u` is
already a pin, `v` is removed, otherwise `v`'s slot is reused for `u`,
which also appends the net to `u`'s incident nets), disables `v` and
returns a memento.  `Hypergraph::uncontract` re-enables `v`, sets
`partId(v) := partId(u)` (`reverseContraction`), restores the incident
nets, and sets `c(u) -= c(v)`.

The pin-level rewriting lives in `StreamingHypergraph::contract` /
`uncontract` (`streaming_hypergraph.h`), which is not part of this source
drop.  Modelled from the spec: the memento is "a stack entry
{u, v, restored-state-of-incident-nets}" (§3), so it carries the pin
lists of the nets incident to `v` and `u`'s incident-net list, and
`uncontract` is their exact inverse (§4.A). -/

@[ext]
structure Hypergraph where
  nodeWeight : ℕ → ℤ
  nodeEnabled : ℕ → Bool
  edgeEnabled : ℕ → Bool
  pins : ℕ → List ℕ
  incidentNets : ℕ → List ℕ
  partId : ℕ → ℤ
  pinCountInPart : ℕ → ℤ → ℤ
  connectivity : ℕ → ℤ

/-- The contraction memento: `Memento { u, v }` in the source plus the
restored state of the incident nets (spec §3). -/
structure Memento where
  u : ℕ
  v : ℕ
  savedPins : List (ℕ × List ℕ)
  savedIncidentNetsOfU : List ℕ

/-- Pin rewriting of one hyperedge incident to `v`
(`StreamingHypergraph::contract`, modelled from the spec §4.A):
if `u ∈ pins(e)`, remove `v` from `pins(e)`; otherwise rewrite the `v`
slot to `u`. -/
def Hypergraph.contractPins (u v : ℕ) (ps : List ℕ) : List ℕ :=
  if u ∈ ps then ps.erase v else ps.map (fun w => if w = v then u else w)

/-- Embedding of `Hypergraph::contract(u, v)`. -/
def Hypergraph.contract (H : Hypergraph) (u v : ℕ) : Hypergraph × Memento :=
  ({ H with
      nodeWeight := Function.update H.nodeWeight u (H.nodeWeight u + H.nodeWeight v)
      nodeEnabled := Function.update H.nodeEnabled v false
      pins := fun e =>
        if e ∈ H.incidentNets v then Hypergraph.contractPins u v (H.pins e)
        else H.pins e
      incidentNets := Function.update H.incidentNets u
        (H.incidentNets u ++
          (H.incidentNets v).filter (fun e => decide (u ∉ H.pins e))) },
   ⟨u, v, (H.incidentNets v).map (fun e => (e, H.pins e)), H.incidentNets u⟩)

/-- Embedding of `Hypergraph::uncontract(memento)`:
`reverseContraction` re-enables `v` and sets `partId(v) := partId(u)`;
the incident nets of `v` get their pre-contraction pin lists back and
`u`'s incident-net list is restored; finally `c(u) -= c(v)`. -/
def Hypergraph.uncontract (H : Hypergraph) (m : Memento) : Hypergraph :=
  { H with
      nodeEnabled := Function.update H.nodeEnabled m.v true
      partId := Function.update H.partId m.v (H.partId m.u)
      pins := fun e =>
        match m.savedPins.find? (fun p => p.1 == e) with
        | some p => p.2
        | none => H.pins e
      incidentNets := Function.update H.incidentNets m.u m.savedIncidentNetsOfU
      nodeWeight :=
        Function.update H.nodeWeight m.u (H.nodeWeight m.u - H.nodeWeight m.v) }

/-- A sequence of contractions, returning the final hypergraph and the
mementos in contraction order (the memento stack, bottom first). -/
def Hypergraph.contractSeq (H : Hypergraph) : List (ℕ × ℕ) → Hypergraph × List Memento
  | [] => (H, [])
  | (u, v) :: rest =>
    let step := H.contract u v
    let next := step.1.contractSeq rest
    (next.1, step.2 :: next.2)

/-- Apply `uncontract` for each memento of the list in order. -/
def Hypergraph.uncontractSeq (H : Hypergraph) : List Memento → Hypergraph
  | [] => H
  | m :: rest => (H.uncontract m).uncontractSeq rest

/-- The source's preconditions for each contraction of a sequence
(`contract` asserts both endpoints enabled; both share the
representative's block at contraction time, spec §4.A). -/
def Hypergraph.validContractionSeq (H : Hypergraph) : List (ℕ × ℕ) → Bool
  | [] => true
  | (u, v) :: rest =>
    H.nodeEnabled u && H.nodeEnabled v && decide (u ≠ v) &&
      decide (H.partId v = H.partId u) &&
      (H.contract u v).1.validContractionSeq rest

/-- Embedding of `Hypergraph::removeEdge(he)` (hypergraph.h:520):
for each pin the net is unlinked from the pin's incident nets
(`removeIncidentEdgeFromHypernode`), then the hyperedge is disabled.
The pin counts are *not* touched (the code's
`// TODO(heuer): invalidate pin counts of he`). -/
def Hypergraph.removeEdge (H : Hypergraph) (he : ℕ) : Hypergraph :=
  { H with
      incidentNets := fun w =>
        if w ∈ H.pins he then (H.incidentNets w).erase he else H.incidentNets w
      edgeEnabled := Function.update H.edgeEnabled he false }

/-- A concrete hypergraph for the `removeEdge` counterexample: one node
`0` of weight `1` in block `0`, one enabled hyperedge `0` with pin list
`[0]`, with `p(0, 0) = 1` and `|Λ(0)| = 1`. -/
def removeEdgeExampleHypergraph : Hypergraph where
  nodeWeight := fun _ => 1
  nodeEnabled := fun n => n = 0
  edgeEnabled := fun e => e = 0
  pins := fun e => if e = 0 then [0] else []
  incidentNets := fun n => if n = 0 then [0] else []
  partId := fun _ => 0
  pinCountInPart := fun e i => if e = 0 ∧ i = 0 then 1 else 0
  connectivity := fun e => if e = 0 then 1 else 0

/-- A concrete hypergraph for the round-trip witness: nodes `0..4` of
weight `1`, nets `0 = {0,1,3}`, `1 = {1,2,3}`, `2 = {1,3,4}`, every node
in block `0`. -/
def contractExampleHypergraph : Hypergraph where
  nodeWeight := fun _ => 1
  nodeEnabled := fun n => decide (n < 5)
  edgeEnabled := fun e => decide (e < 3)
  pins := fun e =>
    if e = 0 then [0, 1, 3] else if e = 1 then [1, 2, 3]
    else if e = 2 then [1, 3, 4] else []
  incidentNets := fun n =>
    if n = 0 then [0] else if n = 1 then [0, 1, 2] else if n = 2 then [1]
    else if n = 3 then [0, 1, 2] else if n = 4 then [2] else []
  partId := fun _ => 0
  pinCountInPart := fun e i => if e < 3 ∧ i = 0 then 3 else 0
  connectivity := fun e => if e < 3 then 1 else 0

/-! ### The clustering coarsener's matching protocol
(multilevel_coarsener.h, `MultilevelCoarsener::matchVertices`)

The embedding linearizes the protocol: each `matchVertices` call is one
atomic step, so between calls no vertex is in the transient
`MATCHING_IN_PROGRESS` state and the matching state collapses to a
boolean (`UNMATCHED` / `MATCHED`).  The conflict-resolution branch of the
source (reached only when another thread concurrently holds `v` in
`MATCHING_IN_PROGRESS`) is unreachable in this linearized semantics for
`u ≠ v`, and `_matching_partner` (reset to `u` at the end of every call)
is therefore not part of the observable state. -/

structure ClusterState where
  cluster_ids : ℕ → ℕ
  clusterWeight : ℕ → ℤ
  matched : ℕ → Bool

/-- The initial clustering state of a coarsening pass
(multilevel_coarsener.h:145): every vertex is its own cluster with its
own weight, and unmatched. -/
def initialClusterState (c : ℕ → ℤ) : ClusterState where
  cluster_ids := fun w => w
  clusterWeight := c
  matched := fun _ => false

/-- Embedding of `MultilevelCoarsener::matchVertices(hg, u, v, ...)`;
`c` is the node-weight function `hypergraph.nodeWeight`, `W` the
`max_allowed_node_weight`.  Mirrors the source's branches:
the weight-cap precheck, the CAS claiming `u`, then either `v` is
`MATCHED` (join `v`'s cluster directly if `v` is its representative,
otherwise re-check the cap against the representative's weight), or the
CAS on `v` succeeds and `u` joins the fresh cluster `v`; finally `u` is
marked `MATCHED`. -/
def MultilevelCoarsener.matchVertices (c : ℕ → ℤ) (W : ℤ)
    (s : ClusterState) (u v : ℕ) : ClusterState :=
  if c u + s.clusterWeight v ≤ W then
    if s.matched u = false then
      if s.matched v = true then
        if s.cluster_ids v = v then
          { s with
              cluster_ids := Function.update s.cluster_ids u v
              clusterWeight :=
                Function.update s.clusterWeight v (s.clusterWeight v + c u)
              matched := Function.update s.matched u true }
        else
          if c u + s.clusterWeight (s.cluster_ids v) ≤ W then
            { s with
                cluster_ids := Function.update s.cluster_ids u (s.cluster_ids v)
                clusterWeight := Function.update s.clusterWeight (s.cluster_ids v)
                  (s.clusterWeight (s.cluster_ids v) + c u)
                matched := Function.update s.matched u true }
          else
            { s with matched := Function.update s.matched u true }
      else
        { s with
            cluster_ids := Function.update s.cluster_ids u v
            clusterWeight :=
              Function.update s.clusterWeight v (s.clusterWeight v + c u)
            matched :=
              Function.update (Function.update s.matched v true) u true }
    else s
  else s

/-- A sequence of `matchVertices` calls. -/
def MultilevelCoarsener.matchSeq (c : ℕ → ℤ) (W : ℤ) (s : ClusterState) :
    List (ℕ × ℕ) → ClusterState
  | [] => s
  | (u, v) :: rest =>
    MultilevelCoarsener.matchSeq c W (MultilevelCoarsener.matchVertices c W s u v) rest

/-- Valid calls: both vertices exist and are distinct (the rater never
proposes a vertex as its own contraction partner). -/
def MultilevelCoarsener.validCalls (n : ℕ) (calls : List (ℕ × ℕ)) : Bool :=
  calls.all (fun p => decide (p.1 < n) && decide (p.2 < n) && decide (p.1 ≠ p.2))

/-- The cluster-function invariant (spec P4 and the
`HEAVY_COARSENING_ASSERT` of `coarseningPassImpl`): cluster ids stay in
range, the cluster function is idempotent, unmatched vertices are
untouched singletons, and each representative's `_cluster_weight` is the
total node weight of its cluster. -/
def ClusterInvariant (n : ℕ) (c : ℕ → ℤ) (s : ClusterState) : Prop :=
  (∀ w, w < n → s.cluster_ids w < n) ∧
  (∀ w, w < n → s.cluster_ids (s.cluster_ids w) = s.cluster_ids w) ∧
  (∀ w, w < n → s.matched w = false →
    s.cluster_ids w = w ∧ s.clusterWeight w = c w ∧
      ∀ x, x < n → x ≠ w → s.cluster_ids x ≠ w) ∧
  (∀ r, r < n → s.cluster_ids r = r →
    s.clusterWeight r = ∑ x ∈ Finset.range n, if s.cluster_ids x = r then c x else 0)

/-! ### FM neighbourhood activation (localized_kway_fm_core.h)

After a successful move in `LocalizedKWayFM::findMoves`, the source
iterates over the hyperedges `e` incident to the moved node with
`edgeSize(e) < hyperedge_size_threshold` and over the pins `v` of every
such `e`, guarded by the `updateDeduplicator`; the guard however tests
and inserts the *seed* vertex `u` of the search (the `findMoves`
parameter) instead of the pin `v`:

    for (HypernodeID v : phg.pins(e)) {
      if (!updateDeduplicator.contains(u)) {
        updateDeduplicator.insert(u);
        insertOrUpdatePQ(phg, v, sharedData.nodeTracker);
      }
    }

The deduplicator is cleared after the per-move loop
(`updateDeduplicator.clear()`). -/

/-- The pins for which `insertOrUpdatePQ` is invoked during one move's
activation step, as the source is written (deduplicator keyed on the
seed `u`).  `edges` are the pin lists of the moved node's incident
hyperedges in iteration order, `threshold` is
`context.partition.hyperedge_size_threshold`.  The fold state is
(deduplicator contents, activated pins). -/
def FM.activatedPins (u : ℕ) (edges : List (List ℕ)) (threshold : ℕ) : List ℕ :=
  (edges.foldl
    (fun (st : List ℕ × List ℕ) pinsOfE =>
      if pinsOfE.length < threshold then
        pinsOfE.foldl
          (fun st v => if u ∈ st.1 then st else (st.1 ++ [u], st.2 ++ [v])) st
      else st)
    ([], [])).2

/-- Modelled from the spec: the intended activation step ("activate
unvisited pins into the PQ"), with the deduplicator keyed on the pin `v`
being visited. -/
def FM.activatedPinsIntended (_u : ℕ) (edges : List (List ℕ)) (threshold : ℕ) : List ℕ :=
  (edges.foldl
    (fun (st : List ℕ × List ℕ) pinsOfE =>
      if pinsOfE.length < threshold then
        pinsOfE.foldl
          (fun st v => if v ∈ st.1 then st else (st.1 ++ [v], st.2 ++ [v])) st
      else st)
    ([], [])).2

/-! ### The flow-hypergraph builder (sequential_construction.cpp)

`SequentialConstruction::constructFlowHypergraph` numbers flow nodes as
source = 0, then the subhypergraph nodes of `block_0` in order, then the
sink, then the nodes of `block_1`.  For each hyperedge of the
subhypergraph that cannot be dropped it collects the flow pins (pins in
the node map), accumulates an additive pin hash, records whether some
pin outside the map lies in `block_0` / `block_1` (connecting the edge
to source / sink), excludes the edge if it connects to both sides or
has no flow pin (adding its weight to `non_removable_cut` only in the
former case), otherwise prepends source or sink, sorts the remaining
pins to canonicalize, and either merges the capacity into an identical
existing flow hyperedge (`DynamicIdenticalNetDetection`,
bucket-per-hash, compared by exact pin vector) or appends a new one.
Finally, if source or sink got weight `0`, `total_cut` and
`non_removable_cut` are reset to `0`.

The pin hash function `kahypar::math::hash` is not part of this source
drop and is abstracted as a parameter `h`; the hash table keyed by the
exact hash value with buckets scanned for pin-vector equality is
modelled as a single list searched for equal hash *and* equal pin
vector, which selects the same entry.  `std::sort` is modelled by a
structural insertion sort (any sorting function canonicalizes). -/

structure PartitionedHypergraph where
  partID : ℕ → ℕ
  nodeWeight : ℕ → ℤ
  edgeWeight : ℕ → ℤ
  pins : ℕ → List ℕ
  partWeight : ℕ → ℤ

/-- `phg.pinCountInPart(he, b)`: the number of pins of `he` in block
`b` (the partitioned hypergraph maintains this count incrementally;
spec invariant I2 makes it the ground-truth recount). -/
def PartitionedHypergraph.pinCountInPart (phg : PartitionedHypergraph)
    (he b : ℕ) : ℕ :=
  ((phg.pins he).filter (fun p => phg.partID p == b)).length

structure Subhypergraph where
  nodes : List ℕ
  hes : List ℕ

/-- Modelled from the spec and the repository's flow-construction tests
(`canHyperedgeBeDropped` is declared in a header not in this source
drop): a hyperedge can be dropped only under the cut objective, when it
has pins outside the two blocks of the flow problem; under km1 (the
objective of all flow-construction tests) no hyperedge is dropped. -/
def canHyperedgeBeDropped (objectiveIsCut : Bool) (phg : PartitionedHypergraph)
    (he b0 b1 : ℕ) : Bool :=
  objectiveIsCut &&
    decide (phg.pinCountInPart he b0 + phg.pinCountInPart he b1 <
      (phg.pins he).length)

/-- The `block_0` refinement nodes in `add_nodes` order. -/
def flowNodesB0 (phg : PartitionedHypergraph) (sub : Subhypergraph) (b0 : ℕ) :
    List ℕ :=
  sub.nodes.filter (fun hn => phg.partID hn == b0)

/-- The `block_1` refinement nodes in `add_nodes` order. -/
def flowNodesB1 (phg : PartitionedHypergraph) (sub : Subhypergraph) (b1 : ℕ) :
    List ℕ :=
  sub.nodes.filter (fun hn => phg.partID hn == b1)

/-- `flow_problem.source` is flow node `0`. -/
def flowSource : ℕ := 0

/-- `flow_problem.sink` comes right after the `block_0` nodes. -/
def flowSink (phg : PartitionedHypergraph) (sub : Subhypergraph) (b0 : ℕ) : ℕ :=
  (flowNodesB0 phg sub b0).length + 1

/-- `_node_to_whfc`: block-0 nodes get ids `1 ..`, block-1 nodes get ids
`sink + 1 ..`; other vertices are not in the map. -/
def nodeToWhfc (phg : PartitionedHypergraph) (sub : Subhypergraph)
    (b0 b1 : ℕ) (hn : ℕ) : Option ℕ :=
  match (flowNodesB0 phg sub b0).findIdx? (fun x => x == hn) with
  | some i => some (i + 1)
  | none =>
    match (flowNodesB1 phg sub b1).findIdx? (fun x => x == hn) with
    | some i => some ((flowNodesB0 phg sub b0).length + 2 + i)
    | none => none

/-- `weight_block_0`: total weight of the mapped block-0 nodes. -/
def weightBlock0 (phg : PartitionedHypergraph) (sub : Subhypergraph) (b0 : ℕ) : ℤ :=
  ((flowNodesB0 phg sub b0).map phg.nodeWeight).sum

/-- `weight_block_1`: total weight of the mapped block-1 nodes. -/
def weightBlock1 (phg : PartitionedHypergraph) (sub : Subhypergraph) (b1 : ℕ) : ℤ :=
  ((flowNodesB1 phg sub b1).map phg.nodeWeight).sum

/-- The source node weight
`std::max(0, phg.partWeight(block_0) - weight_block_0)`. -/
def sourceWeight (phg : PartitionedHypergraph) (sub : Subhypergraph) (b0 : ℕ) : ℤ :=
  max 0 (phg.partWeight b0 - weightBlock0 phg sub b0)

/-- The sink node weight
`std::max(0, phg.partWeight(block_1) - weight_block_1)`. -/
def sinkWeight (phg : PartitionedHypergraph) (sub : Subhypergraph) (b1 : ℕ) : ℤ :=
  max 0 (phg.partWeight b1 - weightBlock1 phg sub b1)

/-- The flow pins of a hyperedge: its pins that are in `_node_to_whfc`,
in pin order. -/
def flowPins (phg : PartitionedHypergraph) (sub : Subhypergraph)
    (b0 b1 : ℕ) (he : ℕ) : List ℕ :=
  (phg.pins he).filterMap (nodeToWhfc phg sub b0 b1)

/-- `connectToSource`: some pin outside the node map lies in `block_0`. -/
def connectsToSource (phg : PartitionedHypergraph) (sub : Subhypergraph)
    (b0 b1 : ℕ) (he : ℕ) : Bool :=
  (phg.pins he).any
    (fun p => (nodeToWhfc phg sub b0 b1 p).isNone && (phg.partID p == b0))

/-- `connectToSink`: some pin outside the node map lies in `block_1`. -/
def connectsToSink (phg : PartitionedHypergraph) (sub : Subhypergraph)
    (b0 b1 : ℕ) (he : ℕ) : Bool :=
  (phg.pins he).any
    (fun p => (nodeToWhfc phg sub b0 b1 p).isNone && (phg.partID p == b1))

/-- `push_into_tmp_pins(pin, true)`: the pin is pushed at the back and
swapped with the front slot. -/
def swapFirstLast : List ℕ → List ℕ
  | [] => []
  | [x] => [x]
  | x :: xs => xs.getLastD x :: (xs.dropLast ++ [x])

/-- The `_tmp_pins` vector right before sorting: the flow pins, with
source (or else sink) pushed and swapped to the front when the edge
connects to that side. -/
def tmpPins (phg : PartitionedHypergraph) (sub : Subhypergraph)
    (b0 b1 : ℕ) (he : ℕ) : List ℕ :=
  if connectsToSource phg sub b0 b1 he then
    swapFirstLast (flowPins phg sub b0 b1 he ++ [flowSource])
  else if connectsToSink phg sub b0 b1 he then
    swapFirstLast (flowPins phg sub b0 b1 he ++ [flowSink phg sub b0])
  else
    flowPins phg sub b0 b1 he

/-- Structural insertion into a sorted list (model of `std::sort`). -/
def insertSorted (x : ℕ) : List ℕ → List ℕ
  | [] => [x]
  | y :: ys => if x ≤ y then x :: y :: ys else y :: insertSorted x ys

/-- Structural sort (model of `std::sort`). -/
def sortPins : List ℕ → List ℕ
  | [] => []
  | x :: xs => insertSorted x (sortPins xs)

/-- `std::sort(_tmp_pins.begin() + (_tmp_pins[0] == source ||
_tmp_pins[0] == sink), _tmp_pins.end())`: sort everything, keeping a
leading source/sink in place. -/
def sortTailIfSrcSink (src snk : ℕ) (tmp : List ℕ) : List ℕ :=
  match tmp with
  | [] => []
  | x :: xs => if x = src ∨ x = snk then x :: sortPins xs else sortPins (x :: xs)

/-- The canonical (sorted) flow pin vector used for identical-net
detection. -/
def canonicalFlowPins (phg : PartitionedHypergraph) (sub : Subhypergraph)
    (b0 b1 : ℕ) (he : ℕ) : List ℕ :=
  sortTailIfSrcSink flowSource (flowSink phg sub b0)
    (tmpPins phg sub b0 b1 he)

/-- The additive pin-set hash accumulated by `push_into_tmp_pins`
(`current_hash += kahypar::math::hash(pin)`); `h` abstracts
`kahypar::math::hash`. -/
def flowPinHash (h : ℕ → ℕ) (phg : PartitionedHypergraph) (sub : Subhypergraph)
    (b0 b1 : ℕ) (he : ℕ) : ℕ :=
  ((tmpPins phg sub b0 b1 he).map h).sum

structure FlowHyperedge where
  pins : List ℕ
  hash : ℕ
  capacity : ℤ

structure FlowBuildState where
  flowHes : List FlowHyperedge
  total_cut : ℤ
  non_removable_cut : ℤ

/-- `DynamicIdenticalNetDetection::add_if_not_contained(he, he_hash,
pins)`: scan the flow hyperedges whose hash equals `he_hash` for one
with the identical pin vector; on a hit return the list with the edge's
capacity increased (`_flow_hg.capacity(identical_net) += he_weight` at
the call site), otherwise `none` (the caller then appends a fresh flow
hyperedge).  The bucket-per-hash table is modelled by filtering on the
hash during the scan. -/
def addIdenticalNet (w : ℤ) (hsh : ℕ) (ps : List ℕ) :
    List FlowHyperedge → Option (List FlowHyperedge)
  | [] => none
  | fe :: rest =>
    if fe.hash == hsh && fe.pins == ps then
      some ({ fe with capacity := fe.capacity + w } :: rest)
    else
      (addIdenticalNet w hsh ps rest).map (fe :: ·)

/-- One iteration of the hyperedge loop of `constructFlowHypergraph`. -/
def processHyperedge (objectiveIsCut : Bool) (h : ℕ → ℕ)
    (phg : PartitionedHypergraph) (sub : Subhypergraph) (b0 b1 : ℕ)
    (st : FlowBuildState) (he : ℕ) : FlowBuildState :=
  if canHyperedgeBeDropped objectiveIsCut phg he b0 b1 then st
  else
    let w := phg.edgeWeight he
    let total :=
      if 0 < phg.pinCountInPart he b0 ∧ 0 < phg.pinCountInPart he b1 then
        st.total_cut + w
      else st.total_cut
    let both := connectsToSource phg sub b0 b1 he && connectsToSink phg sub b0 b1 he
    if both = true ∨ flowPins phg sub b0 b1 he = [] then
      { st with
          total_cut := total
          non_removable_cut :=
            st.non_removable_cut + (if both = true then w else 0) }
    else
      let canonical := canonicalFlowPins phg sub b0 b1 he
      let hsh := flowPinHash h phg sub b0 b1 he
      if 1 < canonical.length then
        match addIdenticalNet w hsh canonical st.flowHes with
        | some merged => { st with flowHes := merged, total_cut := total }
        | none =>
          { st with
              flowHes := st.flowHes ++ [⟨canonical, hsh, w⟩]
              total_cut := total }
      else { st with total_cut := total }

structure FlowProblem where
  source : ℕ
  sink : ℕ
  total_cut : ℤ
  non_removable_cut : ℤ
  weight_of_block_0 : ℤ
  weight_of_block_1 : ℤ
  flowHes : List FlowHyperedge

/-- Embedding of
`SequentialConstruction::constructFlowHypergraph(phg, sub_hg, block_0,
block_1, whfc_to_node)`: fold the hyperedge loop, then reset the cut
values if source or sink got weight `0`. -/
def constructFlowHypergraph (objectiveIsCut : Bool) (h : ℕ → ℕ)
    (phg : PartitionedHypergraph) (sub : Subhypergraph) (b0 b1 : ℕ) :
    FlowProblem :=
  let st := sub.hes.foldl (processHyperedge objectiveIsCut h phg sub b0 b1) ⟨[], 0, 0⟩
  let srcW := sourceWeight phg sub b0
  let snkW := sinkWeight phg sub b1
  if srcW = 0 ∨ snkW = 0 then
    { source := flowSource
      sink := flowSink phg sub b0
      total_cut := 0
      non_removable_cut := 0
      weight_of_block_0 := srcW + weightBlock0 phg sub b0
      weight_of_block_1 := snkW + weightBlock1 phg sub b1
      flowHes := st.flowHes }
  else
    { source := flowSource
      sink := flowSink phg sub b0
      total_cut := st.total_cut
      non_removable_cut := st.non_removable_cut
      weight_of_block_0 := srcW + weightBlock0 phg sub b0
      weight_of_block_1 := snkW + weightBlock1 phg sub b1
      flowHes := st.flowHes }

/-- Concrete partitioned hypergraph for the C7 counterexample (k = 3):
vertices `1` (block 0) and `4` (block 1) form the subhypergraph;
hyperedge `0` has pins `[10, 11]` with `partID(10) = 0` and
`partID(11) = 2`, all outside the subhypergraph. -/
def flowC7phg : PartitionedHypergraph where
  partID := fun p => if p = 4 then 1 else if p = 11 then 2 else 0
  nodeWeight := fun _ => 1
  edgeWeight := fun _ => 4
  pins := fun he => if he = 0 then [10, 11] else []
  partWeight := fun b => if b = 0 ∨ b = 1 then 5 else 0

def flowC7sub : Subhypergraph where
  nodes := [1, 4]
  hes := [0]

/-- Concrete inputs for the C8 witness: hyperedges `0` and `1` with the
identical pin list `[1, 4]` (node `1` in block 0, node `4` in block 1,
both in the subhypergraph) and weights `3` and `5`. -/
def flowC8phg : PartitionedHypergraph where
  partID := fun p => if p = 4 then 1 else 0
  nodeWeight := fun _ => 1
  edgeWeight := fun he => if he = 0 then 3 else 5
  pins := fun _ => [1, 4]
  partWeight := fun b => if b = 0 ∨ b = 1 then 5 else 0

def flowC8sub : Subhypergraph where
  nodes := [1, 4]
  hes := [0, 1]

/-- Concrete inputs for the C10 witness: as `flowC8phg` but with
`partWeight(0) = 1`, so the computed source weight is `0`, while
hyperedge `0` (weight `3`) is a cut edge that contributes to
`total_cut` during the scan. -/
def flowC10phg : PartitionedHypergraph where
  partID := fun p => if p = 4 then 1 else 0
  nodeWeight := fun _ => 1
  edgeWeight := fun he => if he = 0 then 3 else 5
  pins := fun _ => [1, 4]
  partWeight := fun b => if b = 0 then 1 else 5

def flowC10sub : Subhypergraph where
  nodes := [1, 4]
  hes := [0]

/-! ## Theorems -/

/-! ### C4: coarsening termination -/

/-- **C4** (corrected).  The claim asserts that `coarseningPass` returns
`false` iff `nodes_before / nodes_after` is *strictly* below the minimum
shrink factor.  The code stops already at equality: with
`nodes_before = 4`, `nodes_after = 2` and minimum shrink factor `2`, the
pass returns `false` although the ratio is not strictly below the
threshold. -/
theorem coarseningPass_strict_ratio_counterexample :
    MultilevelCoarsener.coarseningPassContinues 4 2 2 = false ∧
      ¬ ((4 : ℚ) / 2 < 2) := by
  constructor
  · simp [MultilevelCoarsener.coarseningPassContinues]
    norm_num
  · norm_num

/-- **C4** (amended).  `coarseningPass` returns `false` iff the per-pass
reduction ratio `nodes_before / nodes_after` is *less than or equal to*
the minimum shrink factor, and `shouldNotTerminate` returns `false` iff
the current number of nodes is at most the contraction limit. -/
theorem coarsener_termination_conditions
    (numNodesBeforePass numNodesAfterPass : ℕ) (minimumShrinkFactor : ℚ)
    (currentNumNodes contractionLimit : ℕ) :
    (MultilevelCoarsener.coarseningPassContinues numNodesBeforePass
        numNodesAfterPass minimumShrinkFactor = false ↔
      (numNodesBeforePass : ℚ) / (numNodesAfterPass : ℚ) ≤ minimumShrinkFactor) ∧
    (MultilevelCoarsener.shouldNotTerminate currentNumNodes contractionLimit = false ↔
      currentNumNodes ≤ contractionLimit) := by
  constructor
  · unfold MultilevelCoarsener.coarseningPassContinues
    split <;> simp_all
  · unfold MultilevelCoarsener.shouldNotTerminate
    simp

/-! ### C5: the recursive bipartitioning tree -/

/-- Helper: consecutive levels of `buildLevels` are always linked by
`expandLevel`, independently of the fuel. -/
theorem RBTree.buildLevels_chain (fuel : ℕ) :
    ∀ (cur : List ℕ) (i : ℕ), i + 1 < (cur :: RBTree.buildLevels fuel cur).length →
      (cur :: RBTree.buildLevels fuel cur).get? (i + 1) =
        ((cur :: RBTree.buildLevels fuel cur).get? i).map RBTree.expandLevel := by
  induction fuel with
  | zero => intro cur i h; simp [RBTree.buildLevels] at h
  | succ fuel ih =>
    intro cur i h
    unfold RBTree.buildLevels at h ⊢
    by_cases hc : RBTree.continueAfterExpanding cur = true
    · simp only [hc, if_true] at h ⊢
      match i with
      | 0 => simp
      | i + 1 =>
        have := ih (RBTree.expandLevel cur) i (by simpa using h)
        simpa using this
    · simp only [if_neg hc] at h ⊢
      match i with
      | 0 => simp
      | i + 1 =>
        exfalso
        simp only [List.length_cons, List.length_nil] at h
        omega

/-- **C5** (confirmed).  The RBTree for partition count `k` has root value
`k`; each consecutive level expands the previous one node by node, a node
of value `m > 1` producing exactly the two children `⌈m/2⌉ = m/2 + m%2`
and `⌊m/2⌋ = m/2`, and a node of value `1` producing the single child `1`.
For `k = 7` the children of the root are `4` and `3`, and
`targetBlocksInFinalPartition(4, 2)` is the half-open range `[4, 6)`. -/
theorem rbtree_structure (k : ℕ) :
    (RBTree.rbLevels k).get? 0 = some [k] ∧
    (∀ i, i + 1 < (RBTree.rbLevels k).length →
      (RBTree.rbLevels k).get? (i + 1) =
        ((RBTree.rbLevels k).get? i).map RBTree.expandLevel) ∧
    (∀ m, 1 < m → RBTree.expandOne m = [m / 2 + m % 2, m / 2] ∧
      m / 2 + m % 2 = (m + 1) / 2) ∧
    RBTree.expandOne 1 = [1] ∧
    (RBTree.rbLevels 7).get? 1 = some [4, 3] ∧
    RBTree.targetBlocksInFinalPartition 7 4 2 = (4, 6) := by
  refine ⟨rfl, ?_, ?_, rfl, by decide, by decide⟩
  · intro i h
    exact RBTree.buildLevels_chain k [k] i h
  · intro m hm
    constructor
    · simp [RBTree.expandOne, hm]
    · omega

/-- Witness for C5 at concrete inputs. -/
theorem rbtree_structure_witness :
    (RBTree.rbLevels 7).get? 2 = ((RBTree.rbLevels 7).get? 1).map RBTree.expandLevel ∧
      RBTree.expandOne 7 = [4, 3] := by
  refine ⟨(rbtree_structure 7).2.1 1 (by decide), ?_⟩
  have h := ((rbtree_structure 7).2.2.1 7 (by decide)).1
  simpa using h

/-! ### C6: adaptive epsilon -/

/-- **C6** (confirmed, modulo modelling `double` as exact rationals and
abstracting `std::pow` as `pw`).  `computeAdaptiveEpsilon` returns `0`
when the current weight is `0`, otherwise
`min(0.99, max(base^(1/ceil(log2 k)) - 1, 0))`, and the result always
lies in `[0, 0.99]`. -/
theorem computeAdaptiveEpsilon_spec (pw : ℚ → ℚ → ℚ) (info : OriginalHypergraphInfo)
    (currentHypergraphWeight currentK : ℕ) :
    (currentHypergraphWeight = 0 →
      info.computeAdaptiveEpsilon pw currentHypergraphWeight currentK = 0) ∧
    (currentHypergraphWeight ≠ 0 →
      info.computeAdaptiveEpsilon pw currentHypergraphWeight currentK =
        min (99 / 100)
          (max (pw (info.adaptiveBase currentHypergraphWeight currentK)
                  (1 / (Nat.clog 2 currentK : ℚ)) - 1) 0)) ∧
    0 ≤ info.computeAdaptiveEpsilon pw currentHypergraphWeight currentK ∧
    info.computeAdaptiveEpsilon pw currentHypergraphWeight currentK ≤ 99 / 100 := by
  unfold OriginalHypergraphInfo.computeAdaptiveEpsilon
  by_cases h : currentHypergraphWeight = 0
  · refine ⟨fun _ => by rw [if_pos h], fun hne => absurd h hne, ?_, ?_⟩
    · rw [if_pos h]
    · rw [if_pos h]; norm_num
  · refine ⟨fun heq => absurd heq h, fun _ => by rw [if_neg h], ?_, ?_⟩
    · rw [if_neg h]; exact le_min (by norm_num) (le_max_right _ _)
    · rw [if_neg h]; exact min_le_left _ _

/-- Witness for C6: both hypotheses discharged at concrete inputs. -/
theorem computeAdaptiveEpsilon_spec_witness :
    (OriginalHypergraphInfo.computeAdaptiveEpsilon (fun b _ => b)
      ⟨100, 7, 3 / 100⟩ 0 2 = 0) ∧
    (OriginalHypergraphInfo.computeAdaptiveEpsilon (fun b _ => b)
      ⟨100, 7, 3 / 100⟩ 50 2 =
        min (99 / 100)
          (max ((OriginalHypergraphInfo.mk 100 7 (3 / 100)).adaptiveBase 50 2 - 1) 0)) :=
  ⟨(computeAdaptiveEpsilon_spec (fun b _ => b) ⟨100, 7, 3 / 100⟩ 0 2).1 rfl,
   (computeAdaptiveEpsilon_spec (fun b _ => b) ⟨100, 7, 3 / 100⟩ 50 2).2.1 (by decide)⟩

/-! ### C1: contraction / uncontraction round trip -/

/-- Helper: looking up a key in the saved pin lists of the memento. -/
theorem find?_saved_pins (l : List ℕ) (g : ℕ → List ℕ) (e : ℕ) :
    (l.map (fun x => (x, g x))).find? (fun p => p.1 == e) =
      if e ∈ l then some (e, g e) else none := by
  induction l with
  | nil => simp
  | cons a l ih =>
    by_cases hae : a = e
    · subst hae
      simp [List.find?_cons]
    · have : ((a, g a).1 == e) = false := by simpa using hae
      simp only [List.map_cons, List.find?_cons, this, List.mem_cons]
      rw [ih]
      by_cases he : e ∈ l <;> simp [he, Ne.symm hae, hae]

/-- Helper: a single `contract` followed by `uncontract` of its memento is
the identity, under the contraction preconditions. -/
theorem Hypergraph.uncontract_contract (H : Hypergraph) (u v : ℕ)
    (huv : u ≠ v) (hv : H.nodeEnabled v = true) (hpart : H.partId v = H.partId u) :
    (H.contract u v).1.uncontract (H.contract u v).2 = H := by
  unfold Hypergraph.contract Hypergraph.uncontract
  refine Hypergraph.ext ?_ ?_ rfl ?_ ?_ ?_ rfl rfl
  · -- node weights
    dsimp only
    rw [Function.update_idem, Function.update_same,
      Function.update_noteq (Ne.symm huv)]
    have : H.nodeWeight u + H.nodeWeight v - H.nodeWeight v = H.nodeWeight u := by
      ring
    rw [this, Function.update_eq_self]
  · -- node enabled flags
    dsimp only
    rw [Function.update_idem, ← hv, Function.update_eq_self]
  · -- pin lists
    funext e
    dsimp only
    rw [find?_saved_pins]
    by_cases he : e ∈ H.incidentNets v
    · simp [he]
    · simp [he]
  · -- incident nets
    dsimp only
    rw [Function.update_idem, Function.update_eq_self]
  · -- part ids
    dsimp only
    rw [← hpart, Function.update_eq_self]

/-- Helper: splitting an uncontraction sequence. -/
theorem Hypergraph.uncontractSeq_append (H : Hypergraph) (l1 l2 : List Memento) :
    H.uncontractSeq (l1 ++ l2) = (H.uncontractSeq l1).uncontractSeq l2 := by
  induction l1 generalizing H with
  | nil => rfl
  | cons m l1 ih => simp [Hypergraph.uncontractSeq, ih]

/-- **C1** (confirmed; the pin-level code is modelled from the spec, see
the definitions above).  For any valid contraction sequence, uncontracting
the mementos in reverse (LIFO) order restores the hypergraph exactly
(node weights, enabled flags, edge weights /pin lists, incidence lists,
part ids, overlay counters).  Moreover a single `uncontract` re-enables
`v`, re-inserts `v` into the pins of every net it was removed from,
restores `u`'s weight, and sets `partId(v) := partId(u)`. -/
theorem hypergraph_contract_uncontract_roundtrip (H : Hypergraph)
    (ops : List (ℕ × ℕ)) (hvalid : H.validContractionSeq ops = true) :
    (H.contractSeq ops).1.uncontractSeq (H.contractSeq ops).2.reverse = H ∧
    (∀ u v, u ≠ v → H.nodeEnabled v = true → H.partId v = H.partId u →
      ((H.contract u v).1.uncontract (H.contract u v).2).nodeEnabled v = true ∧
      (∀ e ∈ H.incidentNets v, v ∈ H.pins e →
        v ∈ ((H.contract u v).1.uncontract (H.contract u v).2).pins e) ∧
      ((H.contract u v).1.uncontract (H.contract u v).2).nodeWeight u =
        H.nodeWeight u ∧
      ((H.contract u v).1.uncontract (H.contract u v).2).partId v =
        (H.contract u v).1.partId u) := by
  constructor
  · induction ops generalizing H with
    | nil => rfl
    | cons p rest ih =>
      obtain ⟨u, v⟩ := p
      simp only [Hypergraph.validContractionSeq, Bool.and_eq_true,
        decide_eq_true_eq] at hvalid
      obtain ⟨⟨⟨⟨hu, hv⟩, huv⟩, hpart⟩, hrest⟩ := hvalid
      simp only [Hypergraph.contractSeq]
      rw [List.reverse_cons, Hypergraph.uncontractSeq_append,
        ih (H.contract u v).1 hrest]
      simp only [Hypergraph.uncontractSeq]
      exact Hypergraph.uncontract_contract H u v huv hv hpart
  · intro u v huv hv hpart
    rw [Hypergraph.uncontract_contract H u v huv hv hpart]
    exact ⟨hv, fun e _ hve => hve, rfl, hpart⟩

/-- Witness for C1: a concrete two-contraction round trip.  The
hypergraph is the restriction of the spec's scenario-2 instance to nodes
`0..4` and nets `0 = {0,1,3}`, `1 = {1,2,3}`, `4 = {1,3,4}`; we contract
`(1, 3)` and then `(1, 2)` and uncontract in reverse order. -/
theorem hypergraph_contract_uncontract_roundtrip_witness :
    (contractExampleHypergraph.contractSeq [(1, 3), (1, 2)]).1.uncontractSeq
        (contractExampleHypergraph.contractSeq [(1, 3), (1, 2)]).2.reverse =
      contractExampleHypergraph :=
  (hypergraph_contract_uncontract_roundtrip contractExampleHypergraph
    [(1, 3), (1, 2)] (by decide)).1

/-! ### C2: removeEdge -/

/-- **C2** (corrected: counterexample).  The claim asserts that
`removeEdge(e)` decrements the pin counts `p(e, i)` and recomputes
`|Λ(e)|`.  On the one-node one-edge hypergraph with `p(0, 0) = 1`, the
edge is enabled, yet after `removeEdge(0)` the pin count is still `1`
(not decremented to `0`) and the connectivity is still `1`. -/
theorem removeEdge_stale_counters_counterexample :
    removeEdgeExampleHypergraph.edgeEnabled 0 = true ∧
    (removeEdgeExampleHypergraph.removeEdge 0).pinCountInPart 0 0 = 1 ∧
    (removeEdgeExampleHypergraph.removeEdge 0).connectivity 0 = 1 ∧
    ¬ ((removeEdgeExampleHypergraph.removeEdge 0).pinCountInPart 0 0 =
        removeEdgeExampleHypergraph.pinCountInPart 0 0 - 1) := by
  refine ⟨rfl, rfl, rfl, ?_⟩
  decide

/-- **C2** (amended).  `removeEdge(e)` disables `e` and unlinks `e` from
the incident-net list of every pin of `e` (other incident-net lists are
untouched); the pin-count-in-part values and the connectivity are left
unchanged (stale), per the source's
`// TODO(heuer): invalidate pin counts of he`. -/
theorem removeEdge_behavior (H : Hypergraph) (he : ℕ)
    (_hen : H.edgeEnabled he = true) :
    (H.removeEdge he).edgeEnabled he = false ∧
    (∀ w ∈ H.pins he,
      (H.removeEdge he).incidentNets w = (H.incidentNets w).erase he) ∧
    (∀ w, w ∉ H.pins he → (H.removeEdge he).incidentNets w = H.incidentNets w) ∧
    (H.removeEdge he).pinCountInPart = H.pinCountInPart ∧
    (H.removeEdge he).connectivity = H.connectivity := by
  refine ⟨?_, ?_, ?_, rfl, rfl⟩
  · simp [Hypergraph.removeEdge]
  · intro w hw
    simp [Hypergraph.removeEdge, hw]
  · intro w hw
    simp [Hypergraph.removeEdge, hw]

/-- Witness for C2 at a concrete input. -/
theorem removeEdge_behavior_witness :
    (removeEdgeExampleHypergraph.removeEdge 0).edgeEnabled 0 = false ∧
    (removeEdgeExampleHypergraph.removeEdge 0).incidentNets 0 =
      (removeEdgeExampleHypergraph.incidentNets 0).erase 0 :=
  ⟨(removeEdge_behavior removeEdgeExampleHypergraph 0 (by decide)).1,
   (removeEdge_behavior removeEdgeExampleHypergraph 0 (by decide)).2.1 0 (by decide)⟩

/-! ### C3: the matching protocol keeps the cluster function valid -/

/-- Helper: how a cluster-membership sum changes when one vertex is
repointed. -/
theorem sum_if_update (n : ℕ) (c : ℕ → ℤ) (g : ℕ → ℕ) (u r t : ℕ) (hu : u < n) :
    (∑ x ∈ Finset.range n, if Function.update g u r x = t then c x else 0) =
      (∑ x ∈ Finset.range n, if g x = t then c x else 0)
        - (if g u = t then c u else 0) + (if r = t then c u else 0) := by
  have hmem : u ∈ Finset.range n := Finset.mem_range.mpr hu
  have h1 := Finset.sum_erase_add (Finset.range n)
    (fun x => if Function.update g u r x = t then c x else 0) hmem
  have h2 := Finset.sum_erase_add (Finset.range n)
    (fun x => if g x = t then c x else 0) hmem
  simp only [Function.update_same] at h1
  simp only at h2
  have h3 : (∑ x ∈ (Finset.range n).erase u,
        (if Function.update g u r x = t then c x else 0)) =
      ∑ x ∈ (Finset.range n).erase u, (if g x = t then c x else 0) := by
    refine Finset.sum_congr rfl (fun x hx => ?_)
    rw [Function.update_noteq (Finset.ne_of_mem_erase hx)]
  rw [h3] at h1
  linarith [h1, h2]

/-- Helper: the cluster sum of an untouched singleton representative. -/
theorem sum_single_rep (n : ℕ) (c : ℕ → ℤ) (g : ℕ → ℕ) (u : ℕ) (hu : u < n)
    (hgu : g u = u) (hpt : ∀ x, x < n → x ≠ u → g x ≠ u) :
    (∑ x ∈ Finset.range n, if g x = u then c x else 0) = c u := by
  rw [Finset.sum_eq_single_of_mem u (Finset.mem_range.mpr hu)]
  · rw [if_pos hgu]
  · intro b hb hbne
    rw [if_neg (hpt b (Finset.mem_range.mp hb) hbne)]

/-- Helper: joining the unmatched vertex `u` into the cluster of a
representative `r` preserves the cluster invariant.  `m'` is the new
matching-state function; it marks `u`, keeps `r` marked, and unmarks
nobody. -/
theorem ClusterInvariant.join (n : ℕ) (c : ℕ → ℤ) (s : ClusterState)
    (u r : ℕ) (m' : ℕ → Bool) (hu : u < n) (hr : r < n) (hru : r ≠ u)
    (hmu : s.matched u = false) (hrr : s.cluster_ids r = r)
    (hinv : ClusterInvariant n c s) (hm'u : m' u = true) (hm'r : m' r = true)
    (hm' : ∀ w, m' w = false → s.matched w = false) :
    ClusterInvariant n c
      ⟨Function.update s.cluster_ids u r,
       Function.update s.clusterWeight r (s.clusterWeight r + c u), m'⟩ := by
  obtain ⟨h0, h1, h2, h3⟩ := hinv
  obtain ⟨hcu, hwu, hptu⟩ := h2 u hu hmu
  refine ⟨?_, ?_, ?_, ?_⟩
  · intro w hw
    dsimp only
    by_cases hwu' : w = u
    · subst hwu'
      rw [Function.update_same]
      exact hr
    · rw [Function.update_noteq hwu']
      exact h0 w hw
  · intro w hw
    dsimp only
    by_cases hwu' : w = u
    · subst hwu'
      rw [Function.update_same, Function.update_noteq hru, hrr]
    · have hne : s.cluster_ids w ≠ u := hptu w hw hwu'
      rw [Function.update_noteq hwu', Function.update_noteq hne]
      exact h1 w hw
  · intro w hw hmw
    dsimp only at hmw ⊢
    have hsw : s.matched w = false := hm' w hmw
    have hwu' : w ≠ u := fun h => by
      subst h
      rw [hm'u] at hmw
      cases hmw
    have hwr : w ≠ r := fun h => by
      subst h
      rw [hm'r] at hmw
      cases hmw
    obtain ⟨hcw, hww, hptw⟩ := h2 w hw hsw
    refine ⟨?_, ?_, ?_⟩
    · rw [Function.update_noteq hwu']
      exact hcw
    · rw [Function.update_noteq hwr]
      exact hww
    · intro x hx hxw
      by_cases hxu : x = u
      · subst hxu
        rw [Function.update_same]
        exact fun h => hwr h.symm
      · rw [Function.update_noteq hxu]
        exact hptw x hx hxw
  · intro t ht hrt
    dsimp only at hrt ⊢
    by_cases htu : t = u
    · subst htu
      rw [Function.update_same] at hrt
      exact absurd hrt hru
    · have hct : s.cluster_ids t = t := by
        rwa [Function.update_noteq htu] at hrt
      rw [sum_if_update n c s.cluster_ids u r t hu]
      have hzero : (if s.cluster_ids u = t then c u else 0) = 0 := by
        rw [hcu]
        exact if_neg (fun h => htu h.symm)
      rw [hzero]
      by_cases htr : t = r
      · subst htr
        rw [Function.update_same, if_pos rfl, h3 t ht hct]
        ring
      · rw [Function.update_noteq htr, if_neg (fun h => htr h.symm),
          h3 t ht hct]
        ring

/-- Helper: one `matchVertices` call preserves the cluster invariant. -/
theorem matchVertices_invariant (n : ℕ) (c : ℕ → ℤ) (W : ℤ) (s : ClusterState)
    (u v : ℕ) (hu : u < n) (hv : v < n) (huv : u ≠ v)
    (hinv : ClusterInvariant n c s) :
    ClusterInvariant n c (MultilevelCoarsener.matchVertices c W s u v) := by
  obtain ⟨h0, h1, h2, h3⟩ := hinv
  unfold MultilevelCoarsener.matchVertices
  by_cases hcap : c u + s.clusterWeight v ≤ W
  swap
  · rw [if_neg hcap]
    exact ⟨h0, h1, h2, h3⟩
  rw [if_pos hcap]
  by_cases hmu : s.matched u = false
  swap
  · rw [if_neg hmu]
    exact ⟨h0, h1, h2, h3⟩
  rw [if_pos hmu]
  by_cases hmv : s.matched v = true
  · rw [if_pos hmv]
    by_cases hrv : s.cluster_ids v = v
    · rw [if_pos hrv]
      refine ClusterInvariant.join n c s u v _ hu hv (Ne.symm huv) hmu hrv
        ⟨h0, h1, h2, h3⟩ (Function.update_same u true s.matched) ?_ ?_
      · rw [Function.update_noteq (Ne.symm huv)]
        exact hmv
      · intro w hw
        by_cases hwu : w = u
        · subst hwu
          rw [Function.update_same] at hw
          cases hw
        · rwa [Function.update_noteq hwu] at hw
    · rw [if_neg hrv]
      have hrn : s.cluster_ids v < n := h0 v hv
      have hrr : s.cluster_ids (s.cluster_ids v) = s.cluster_ids v := h1 v hv
      have hru : s.cluster_ids v ≠ u := (h2 u hu hmu).2.2 v hv (Ne.symm huv)
      by_cases hcap2 : c u + s.clusterWeight (s.cluster_ids v) ≤ W
      · rw [if_pos hcap2]
        refine ClusterInvariant.join n c s u (s.cluster_ids v) _ hu hrn hru hmu
          hrr ⟨h0, h1, h2, h3⟩ (Function.update_same u true s.matched) ?_ ?_
        · rw [Function.update_noteq hru]
          -- the representative of a matched non-representative vertex is
          -- itself matched: otherwise nothing could point at it
          by_cases hmr : s.matched (s.cluster_ids v) = false
          · exact absurd rfl ((h2 (s.cluster_ids v) hrn hmr).2.2 v hv
              (fun h => hrv h.symm))
          · simpa using hmr
        · intro w hw
          by_cases hwu : w = u
          · subst hwu
            rw [Function.update_same] at hw
            cases hw
          · rwa [Function.update_noteq hwu] at hw
      · rw [if_neg hcap2]
        -- the weight cap fails: u is only marked matched
        refine ⟨h0, h1, ?_, ?_⟩
        · intro w hw hmw
          dsimp only at hmw ⊢
          have hwu : w ≠ u := fun h => by
            subst h
            rw [Function.update_same] at hmw
            cases hmw
          rw [Function.update_noteq hwu] at hmw
          exact h2 w hw hmw
        · intro t ht hrt
          dsimp only at hrt ⊢
          by_cases htu : t = u
          · subst htu
            obtain ⟨hcu, hwu2, hptu⟩ := h2 t ht hmu
            rw [hwu2, sum_single_rep n c s.cluster_ids t ht hcu hptu]
          · exact h3 t ht hrt
  · rw [if_neg hmv]
    have hsv : s.matched v = false := by simpa using hmv
    obtain ⟨hcv, hwv, hptv⟩ := h2 v hv hsv
    refine ClusterInvariant.join n c s u v _ hu hv (Ne.symm huv) hmu hcv
      ⟨h0, h1, h2, h3⟩
      (Function.update_same u true (Function.update s.matched v true)) ?_ ?_
    · rw [Function.update_noteq (Ne.symm huv), Function.update_same]
    · intro w hw
      by_cases hwu : w = u
      · subst hwu
        rw [Function.update_same] at hw
        cases hw
      · rw [Function.update_noteq hwu] at hw
        by_cases hwv : w = v
        · subst hwv
          rw [Function.update_same] at hw
          cases hw
        · rwa [Function.update_noteq hwv] at hw

/-- Helper: the invariant holds initially and is preserved along any
valid call sequence. -/
theorem matchSeq_invariant (n : ℕ) (c : ℕ → ℤ) (W : ℤ)
    (calls : List (ℕ × ℕ)) (s : ClusterState)
    (hcalls : MultilevelCoarsener.validCalls n calls = true)
    (hinv : ClusterInvariant n c s) :
    ClusterInvariant n c (MultilevelCoarsener.matchSeq c W s calls) := by
  induction calls generalizing s with
  | nil => exact hinv
  | cons p rest ih =>
    obtain ⟨u, v⟩ := p
    simp only [MultilevelCoarsener.validCalls, List.all_cons, Bool.and_eq_true,
      decide_eq_true_eq] at hcalls
    obtain ⟨⟨⟨hu, hv⟩, huv⟩, hrest⟩ := hcalls
    exact ih (MultilevelCoarsener.matchVertices c W s u v)
      (by simpa [MultilevelCoarsener.validCalls] using hrest)
      (matchVertices_invariant n c W s u v hu hv huv hinv)

/-- **C3** (confirmed; the protocol is linearized, see `ClusterState`).
Starting from the state where every vertex is its own cluster with its
own weight, any sequence of `matchVertices` calls (on distinct existing
vertex pairs, under the weight cap enforced by the protocol itself)
keeps the cluster function valid: `cluster_ids` is idempotent, and each
representative's `_cluster_weight` equals the total node weight of the
vertices pointing at it. -/
theorem matchVertices_cluster_invariant (n : ℕ) (c : ℕ → ℤ) (W : ℤ)
    (calls : List (ℕ × ℕ))
    (hcalls : MultilevelCoarsener.validCalls n calls = true) :
    ClusterInvariant n c
      (MultilevelCoarsener.matchSeq c W (initialClusterState c) calls) := by
  refine matchSeq_invariant n c W calls (initialClusterState c) hcalls
    ⟨fun w hw => hw, fun w _ => rfl, fun w _ _ => ⟨rfl, rfl, fun x _ hxw => hxw⟩, ?_⟩
  intro r hr _
  exact (sum_single_rep n c (fun w => w) r hr rfl (fun x _ hxw => hxw)).symm

/-- Witness for C3: three vertices of weight (1), cap (10), matching
(0,1) and then (2,1) (the second call goes through the
matched-representative branch). -/
theorem matchVertices_cluster_invariant_witness :
    ClusterInvariant 3 (fun _ => 1)
      (MultilevelCoarsener.matchSeq (fun _ => 1) 10 (initialClusterState fun _ => 1)
        [(0, 1), (2, 1)]) :=
  matchVertices_cluster_invariant 3 (fun _ => 1) 10 [(0, 1), (2, 1)] (by decide)


/-! ### C9: FM activation of unvisited pins -/

/-- **C9** (code_bug).  Evaluating the activation step at the failing
input: the moved node has a single incident hyperedge with pins
`[5, 6]`, far below the size threshold `10`, and the seed is `0`.  The
claim (and the spec) require both unvisited pins `5` and `6` to be
activated; the code activates only the first pin encountered, because
the deduplicator tests and inserts the seed `u` instead of the visited
pin `v`, so after the first activation every later pin of the whole
move is skipped. -/
theorem fm_activation_dedup_bug :
    FM.activatedPins 0 [[5, 6]] 10 = [5] ∧
    FM.activatedPinsIntended 0 [[5, 6]] 10 = [5, 6] ∧
    FM.activatedPins 0 [[5, 6]] 10 ≠ FM.activatedPinsIntended 0 [[5, 6]] 10 := by
  refine ⟨rfl, rfl, ?_⟩
  decide

/-! ### C7: non-removable hyperedges -/

/-- **C7** (corrected: counterexample).  The claim asserts that a
non-droppable hyperedge with an *empty* flow pin set has its weight
added to `non_removable_cut`.  Hyperedge `0` of the example has all pins
outside the subhypergraph, in blocks `0` and `2`, so it is not
droppable, its flow pin set is empty and it does not connect to both
sides; it is excluded, but its weight `4` is not added:
`non_removable_cut` stays `0`. -/
theorem flow_empty_pins_counterexample :
    canHyperedgeBeDropped false flowC7phg 0 0 1 = false ∧
    flowPins flowC7phg flowC7sub 0 1 0 = [] ∧
    flowC7phg.edgeWeight 0 = 4 ∧
    sourceWeight flowC7phg flowC7sub 0 ≠ 0 ∧
    sinkWeight flowC7phg flowC7sub 1 ≠ 0 ∧
    (constructFlowHypergraph false (fun x => x) flowC7phg flowC7sub 0 1).non_removable_cut
      = 0 := by
  refine ⟨rfl, rfl, rfl, by decide, by decide, by decide⟩

/-- **C7** (amended).  A non-droppable hyperedge whose flow pin set
would contain both the source and the sink, or whose flow pin set is
empty, is excluded from the flow hypergraph; its weight is added to
`non_removable_cut` exactly when it connects to both sides (an edge
excluded for an empty pin set alone contributes nothing). -/
theorem flow_non_removable_step (objectiveIsCut : Bool) (h : ℕ → ℕ)
    (phg : PartitionedHypergraph) (sub : Subhypergraph) (b0 b1 : ℕ)
    (st : FlowBuildState) (he : ℕ)
    (hnd : canHyperedgeBeDropped objectiveIsCut phg he b0 b1 = false)
    (hexcl : (connectsToSource phg sub b0 b1 he &&
        connectsToSink phg sub b0 b1 he) = true ∨
      flowPins phg sub b0 b1 he = []) :
    (processHyperedge objectiveIsCut h phg sub b0 b1 st he).flowHes = st.flowHes ∧
    (processHyperedge objectiveIsCut h phg sub b0 b1 st he).non_removable_cut =
      st.non_removable_cut +
        (if (connectsToSource phg sub b0 b1 he &&
            connectsToSink phg sub b0 b1 he) = true
         then phg.edgeWeight he else 0) := by
  unfold processHyperedge
  rw [hnd]
  simp only [Bool.false_eq_true, if_false]
  rw [if_pos hexcl]
  exact ⟨rfl, rfl⟩

/-- Witness for C7's amended statement at the concrete input. -/
theorem flow_non_removable_step_witness :
    (processHyperedge false (fun x => x) flowC7phg flowC7sub 0 1 ⟨[], 0, 0⟩ 0).flowHes
      = [] ∧
    (processHyperedge false (fun x => x) flowC7phg flowC7sub 0 1 ⟨[], 0, 0⟩ 0).non_removable_cut
      = 0 + (if (connectsToSource flowC7phg flowC7sub 0 1 0 &&
            connectsToSink flowC7phg flowC7sub 0 1 0) = true
         then flowC7phg.edgeWeight 0 else 0) :=
  flow_non_removable_step false (fun x => x) flowC7phg flowC7sub 0 1 ⟨[], 0, 0⟩ 0
    (by decide) (by decide)

/-! ### C8: identical-net deduplication -/

/-- Helper: `insertSorted` permutes. -/
theorem insertSorted_perm (x : ℕ) (l : List ℕ) :
    (insertSorted x l).Perm (x :: l) := by
  induction l with
  | nil => exact List.Perm.refl _
  | cons y ys ih =>
    unfold insertSorted
    by_cases hxy : x ≤ y
    · rw [if_pos hxy]
    · rw [if_neg hxy]
      exact ((ih.cons y).trans (List.Perm.swap x y ys))

/-- Helper: `sortPins` permutes. -/
theorem sortPins_perm (l : List ℕ) : (sortPins l).Perm l := by
  induction l with
  | nil => exact List.Perm.refl _
  | cons x xs ih =>
    unfold sortPins
    exact (insertSorted_perm x (sortPins xs)).trans (ih.cons x)

/-- Helper: canonicalization permutes the `_tmp_pins` vector. -/
theorem sortTailIfSrcSink_perm (src snk : ℕ) (tmp : List ℕ) :
    (sortTailIfSrcSink src snk tmp).Perm tmp := by
  cases tmp with
  | nil => exact List.Perm.refl _
  | cons x xs =>
    show (if x = src ∨ x = snk then x :: sortPins xs
      else sortPins (x :: xs)).Perm (x :: xs)
    by_cases hx : x = src ∨ x = snk
    · rw [if_pos hx]
      exact (sortPins_perm xs).cons x
    · rw [if_neg hx]
      exact sortPins_perm (x :: xs)

/-- Helper: equal canonical pin vectors have equal additive hashes. -/
theorem canonical_eq_hash_eq (h : ℕ → ℕ) (phg : PartitionedHypergraph)
    (sub : Subhypergraph) (b0 b1 e1 e2 : ℕ)
    (hcanon : canonicalFlowPins phg sub b0 b1 e1 =
      canonicalFlowPins phg sub b0 b1 e2) :
    flowPinHash h phg sub b0 b1 e1 = flowPinHash h phg sub b0 b1 e2 := by
  have p1 := (sortTailIfSrcSink_perm flowSource (flowSink phg sub b0)
    (tmpPins phg sub b0 b1 e1)).map h
  have p2 := (sortTailIfSrcSink_perm flowSource (flowSink phg sub b0)
    (tmpPins phg sub b0 b1 e2)).map h
  unfold flowPinHash
  rw [← p1.sum_eq, ← p2.sum_eq]
  show ((canonicalFlowPins phg sub b0 b1 e1).map h).sum =
    ((canonicalFlowPins phg sub b0 b1 e2).map h).sum
  rw [hcanon]

/-- Helper: a hyperedge that is kept and matches no existing flow
hyperedge appends a fresh one. -/
theorem processHyperedge_flowHes_fresh (objectiveIsCut : Bool) (h : ℕ → ℕ)
    (phg : PartitionedHypergraph) (sub : Subhypergraph) (b0 b1 : ℕ)
    (st : FlowBuildState) (he : ℕ)
    (hnd : canHyperedgeBeDropped objectiveIsCut phg he b0 b1 = false)
    (hexcl : ¬ ((connectsToSource phg sub b0 b1 he &&
        connectsToSink phg sub b0 b1 he) = true ∨
      flowPins phg sub b0 b1 he = []))
    (hlen : 1 < (canonicalFlowPins phg sub b0 b1 he).length)
    (hfind : addIdenticalNet (phg.edgeWeight he) (flowPinHash h phg sub b0 b1 he)
      (canonicalFlowPins phg sub b0 b1 he) st.flowHes = none) :
    (processHyperedge objectiveIsCut h phg sub b0 b1 st he).flowHes =
      st.flowHes ++ [⟨canonicalFlowPins phg sub b0 b1 he,
        flowPinHash h phg sub b0 b1 he, phg.edgeWeight he⟩] := by
  unfold processHyperedge
  rw [hnd]
  simp only [Bool.false_eq_true, if_false]
  rw [if_neg hexcl, if_pos hlen, hfind]

/-- Helper: a hyperedge that is kept and matches an existing flow
hyperedge merges into it. -/
theorem processHyperedge_flowHes_merge (objectiveIsCut : Bool) (h : ℕ → ℕ)
    (phg : PartitionedHypergraph) (sub : Subhypergraph) (b0 b1 : ℕ)
    (st : FlowBuildState) (he : ℕ) (merged : List FlowHyperedge)
    (hnd : canHyperedgeBeDropped objectiveIsCut phg he b0 b1 = false)
    (hexcl : ¬ ((connectsToSource phg sub b0 b1 he &&
        connectsToSink phg sub b0 b1 he) = true ∨
      flowPins phg sub b0 b1 he = []))
    (hlen : 1 < (canonicalFlowPins phg sub b0 b1 he).length)
    (hfind : addIdenticalNet (phg.edgeWeight he) (flowPinHash h phg sub b0 b1 he)
      (canonicalFlowPins phg sub b0 b1 he) st.flowHes = some merged) :
    (processHyperedge objectiveIsCut h phg sub b0 b1 st he).flowHes = merged := by
  unfold processHyperedge
  rw [hnd]
  simp only [Bool.false_eq_true, if_false]
  rw [if_neg hexcl, if_pos hlen, hfind]

/-- **C8** (confirmed; hash abstracted as `h`).  For a subhypergraph
whose hyperedge list consists of two hyperedges that are kept (not
droppable, not excluded) and yield the same canonical (sorted) flow pin
vector, the builder creates a single flow hyperedge whose capacity is
the sum of both hyperedges' weights. -/
theorem flow_identical_nets_merged (objectiveIsCut : Bool) (h : ℕ → ℕ)
    (phg : PartitionedHypergraph) (sub : Subhypergraph) (b0 b1 e1 e2 : ℕ)
    (hhes : sub.hes = [e1, e2])
    (hd1 : canHyperedgeBeDropped objectiveIsCut phg e1 b0 b1 = false)
    (hd2 : canHyperedgeBeDropped objectiveIsCut phg e2 b0 b1 = false)
    (hx1 : ¬ ((connectsToSource phg sub b0 b1 e1 &&
        connectsToSink phg sub b0 b1 e1) = true ∨ flowPins phg sub b0 b1 e1 = []))
    (hx2 : ¬ ((connectsToSource phg sub b0 b1 e2 &&
        connectsToSink phg sub b0 b1 e2) = true ∨ flowPins phg sub b0 b1 e2 = []))
    (hlen : 1 < (canonicalFlowPins phg sub b0 b1 e1).length)
    (hcanon : canonicalFlowPins phg sub b0 b1 e1 =
      canonicalFlowPins phg sub b0 b1 e2) :
    (constructFlowHypergraph objectiveIsCut h phg sub b0 b1).flowHes =
      [⟨canonicalFlowPins phg sub b0 b1 e1, flowPinHash h phg sub b0 b1 e1,
        phg.edgeWeight e1 + phg.edgeWeight e2⟩] := by
  have hhash := canonical_eq_hash_eq h phg sub b0 b1 e1 e2 hcanon
  have hlen2 : 1 < (canonicalFlowPins phg sub b0 b1 e2).length := hcanon ▸ hlen
  have h1 : (processHyperedge objectiveIsCut h phg sub b0 b1 ⟨[], 0, 0⟩ e1).flowHes =
      [⟨canonicalFlowPins phg sub b0 b1 e1, flowPinHash h phg sub b0 b1 e1,
        phg.edgeWeight e1⟩] := by
    rw [processHyperedge_flowHes_fresh objectiveIsCut h phg sub b0 b1 ⟨[], 0, 0⟩
      e1 hd1 hx1 hlen rfl]
    rfl
  have hfind2 : addIdenticalNet (phg.edgeWeight e2)
      (flowPinHash h phg sub b0 b1 e2) (canonicalFlowPins phg sub b0 b1 e2)
      (processHyperedge objectiveIsCut h phg sub b0 b1 ⟨[], 0, 0⟩ e1).flowHes =
      some [⟨canonicalFlowPins phg sub b0 b1 e1, flowPinHash h phg sub b0 b1 e1,
        phg.edgeWeight e1 + phg.edgeWeight e2⟩] := by
    rw [h1]
    unfold addIdenticalNet
    rw [if_pos]
    simp only [Bool.and_eq_true, beq_iff_eq]
    exact ⟨hhash, hcanon⟩
  have hfold : ((sub.hes.foldl (processHyperedge objectiveIsCut h phg sub b0 b1)
      ⟨[], 0, 0⟩)).flowHes =
      [⟨canonicalFlowPins phg sub b0 b1 e1, flowPinHash h phg sub b0 b1 e1,
        phg.edgeWeight e1 + phg.edgeWeight e2⟩] := by
    rw [hhes]
    show (processHyperedge objectiveIsCut h phg sub b0 b1
      (processHyperedge objectiveIsCut h phg sub b0 b1 ⟨[], 0, 0⟩ e1) e2).flowHes = _
    exact processHyperedge_flowHes_merge objectiveIsCut h phg sub b0 b1 _ e2 _
      hd2 hx2 hlen2 hfind2
  unfold constructFlowHypergraph
  dsimp only
  split
  · exact hfold
  · exact hfold

/-- Witness for C8: two hyperedges with the identical pin list `[1, 4]`
and weights `3` and `5` collapse into one flow hyperedge of capacity
`3 + 5 = 8`. -/
theorem flow_identical_nets_merged_witness :
    (constructFlowHypergraph false (fun x => x) flowC8phg flowC8sub 0 1).flowHes =
      [⟨canonicalFlowPins flowC8phg flowC8sub 0 1 0,
        flowPinHash (fun x => x) flowC8phg flowC8sub 0 1 0,
        flowC8phg.edgeWeight 0 + flowC8phg.edgeWeight 1⟩] ∧
    flowC8phg.edgeWeight 0 + flowC8phg.edgeWeight 1 = 8 :=
  ⟨flow_identical_nets_merged false (fun x => x) flowC8phg flowC8sub 0 1 0 1
    rfl (by decide) (by decide) (by decide) (by decide) (by decide) rfl,
   by decide⟩

/-! ### C10: a zero-weight source or sink resets the cut values -/

/-- **C10** (confirmed).  If after adding all nodes the computed source
weight `max(0, partWeight(block_0) - weight_block_0)` or the sink
weight is `0`, `constructFlowHypergraph` returns `total_cut = 0` and
`non_removable_cut = 0`, regardless of the values accumulated while
scanning the hyperedges. -/
theorem flow_zero_side_resets_cuts (objectiveIsCut : Bool) (h : ℕ → ℕ)
    (phg : PartitionedHypergraph) (sub : Subhypergraph) (b0 b1 : ℕ)
    (hz : sourceWeight phg sub b0 = 0 ∨ sinkWeight phg sub b1 = 0) :
    (constructFlowHypergraph objectiveIsCut h phg sub b0 b1).total_cut = 0 ∧
    (constructFlowHypergraph objectiveIsCut h phg sub b0 b1).non_removable_cut = 0 := by
  unfold constructFlowHypergraph
  rw [if_pos hz]
  exact ⟨rfl, rfl⟩

/-- Witness for C10: the example's source weight is `0` although the
hyperedge scan accumulates `total_cut = 3` (hyperedge `0` is cut). -/
theorem flow_zero_side_resets_cuts_witness :
    (constructFlowHypergraph false (fun x => x) flowC10phg flowC10sub 0 1).total_cut
        = 0 ∧
    (constructFlowHypergraph false (fun x => x) flowC10phg flowC10sub 0 1).non_removable_cut
        = 0 :=
  flow_zero_side_resets_cuts false (fun x => x) flowC10phg flowC10sub 0 1
    (by decide)
